import Mathlib

/-!
Verification development for the segmentation-and-delivery pipeline of
`src/api/index.py` (yt-dlp logistics API).

The Python program reads a demuxed audio packet stream, accumulates packets
in a buffer, cuts a sealed chunk (`Cargo`) whenever the accumulated duration
reaches `CHUNK_DURATION + BUFFER_TAIL`, rebases the timestamps of each sealed
chunk to start at zero, and ships each chunk to a transcription provider over
HTTP.  This file gives a shallow embedding of that program and proves the
specification's claims about it.

Modelling conventions:
* packet timestamps (`dts`, `pts`) are integers (ticks), the stream time base
  and all durations are exact rationals (the Python floats are used only for
  comparisons of such products);
* the in-memory byte container written by `av` is abstracted to the list of
  packets muxed into it, in mux order; byte sizes are not modelled;
* `float("inf")` as a `max_dur` argument is modelled by `none`;
* the `Cargo` record carries, as ghost data, the `dts`/`pts` of the first
  buffered packet that `create_package` used as the rebase origin (the Python
  value is recoverable only from the container bytes, which are abstracted).
-/

namespace ApiIndex

/-- A compressed audio access unit as produced by `in_container.demux`:
decode/presentation timestamps in ticks plus an opaque payload identity. -/
structure Packet where
  dts : Int
  pts : Int
  payload : Nat
deriving DecidableEq, Repr, Inhabited

/-- A packet as read from the source, whose `dts` may be absent
(`packet.dts is None` in Python). -/
structure RawPacket where
  dts : Option Int
  pts : Int
  payload : Nat
deriving DecidableEq, Repr

/-- `Cargo` from the source (NamedTuple), with the byte buffer abstracted to
the list of muxed packets and with ghost rebase-origin fields. -/
structure Cargo where
  content : List Packet
  index : Nat
  mime_type : String
  baseDts : Int
  basePts : Int
deriving DecidableEq, Repr

/-- `GlobalConfig.CHUNK_DURATION` (seconds). -/
def CHUNK_DURATION : ℚ := 1800

/-- `GlobalConfig.BUFFER_TAIL` (seconds). -/
def BUFFER_TAIL : ℚ := 600

/-- `GlobalConfig.CODEC_MAP`. -/
def CODEC_MAP : List (String × String) :=
  [("opus", "webm"), ("aac", "mp4"), ("mp3", "mp3"), ("vorbis", "ogg")]

/-- `float(pkt.dts - base_dts) * input_stream.time_base` in `create_package`. -/
def rel_time (baseDts : Int) (tb : ℚ) (p : Packet) : ℚ :=
  ((p.dts - baseDts : Int) : ℚ) * tb

/-- Comparison `rel_time < max_dur`, where `max_dur` is either a finite bound
(`CONFIG.CHUNK_DURATION`) or `float("inf")` (modelled `none`), below which
every finite value lies. -/
def ltMax (r : ℚ) (maxDur : Option ℚ) : Bool :=
  match maxDur with
  | none => true
  | some d => decide (r < d)

/-- The in-place `pkt.dts -= base_dts; pkt.pts -= base_pts` rebase performed
on a packet before muxing it. -/
def rebasePacket (baseDts basePts : Int) (p : Packet) : Packet :=
  ⟨p.dts - baseDts, p.pts - basePts, p.payload⟩

/-- The packet predicate of the mux loop: `rel_time < max_dur`. -/
def includedB (baseDts : Int) (tb : ℚ) (maxDur : Option ℚ) (p : Packet) : Bool :=
  ltMax (rel_time baseDts tb p) maxDur

/-- The `for i, pkt in enumerate(packets)` loop of `create_package`:
while `rel_time < max_dur`, rebase and mux the packet and set
`cutoff_idx = i`; at the first packet at or past the bound, `break`.
Returns the muxed (rebased) packets and the final `cutoff_idx`;
`i` and `cutoff` thread the loop counter and `cutoff_idx`. -/
def muxLoop (baseDts basePts : Int) (tb : ℚ) (maxDur : Option ℚ) :
    List Packet → Nat → Nat → List Packet × Nat
  | [], _, cutoff => ([], cutoff)
  | pkt :: rest, i, cutoff =>
    if includedB baseDts tb maxDur pkt then
      let r := muxLoop baseDts basePts tb maxDur rest (i + 1) i
      (rebasePacket baseDts basePts pkt :: r.1, r.2)
    else
      ([], cutoff)

/-- `create_package(packets, input_stream, max_dur, fmt)`: seal a container
holding the rebased prefix of `packets` lying below `max_dur`, returning the
container content and `cutoff_idx`.  Every caller passes a nonempty list
(`packets[0]` would raise on an empty one); the `[]` case is unreachable. -/
def create_package (packets : List Packet) (tb : ℚ) (max_dur : Option ℚ) :
    List Packet × Nat :=
  match packets with
  | [] => ([], 0)
  | p0 :: _ => muxLoop p0.dts p0.pts tb max_dur packets 0 0

/-- Segmenter state of `run_packager_thread`: the working packet buffer, the
next sequence index `box_id`, and the cargoes enqueued so far (in order). -/
structure SegState where
  buffer : List Packet
  box_id : Nat
  cargoes : List Cargo
deriving Repr

/-- `buffer = []`, `box_id = 0`, nothing enqueued. -/
def initState : SegState := ⟨[], 0, []⟩

/-- One iteration of the demux loop of `run_packager_thread`, for a packet
whose `dts` is present: append it to the buffer, compute
`curr_dur = float(packet.dts - buffer[0].dts) * time_base`, and if
`curr_dur >= threshold` (with `threshold = D + T`) seal a chunk with
`create_package(buffer, in_stream, D, fmt)`, enqueue the `Cargo`, keep
`buffer[cutoff + 1:]` and increment `box_id`. -/
def segStep (tb D T : ℚ) (mime : String) (st : SegState) (p : Packet) : SegState :=
  if ((p.dts - (st.buffer ++ [p]).headI.dts : Int) : ℚ) * tb ≥ D + T then
    { buffer := (st.buffer ++ [p]).drop ((create_package (st.buffer ++ [p]) tb (some D)).2 + 1)
      box_id := st.box_id + 1
      cargoes := st.cargoes ++
        [⟨(create_package (st.buffer ++ [p]) tb (some D)).1, st.box_id, mime,
          (st.buffer ++ [p]).headI.dts, (st.buffer ++ [p]).headI.pts⟩] }
  else
    { st with buffer := st.buffer ++ [p] }

/-- The `if buffer:` epilogue of `run_packager_thread`: when the source is
exhausted with a nonempty buffer, seal it in full
(`create_package(buffer, in_stream, float("inf"), out_fmt)`) as a final
cargo with the current `box_id`. -/
def segFlush (tb : ℚ) (mime : String) (st : SegState) : List Cargo :=
  match st.buffer with
  | [] => st.cargoes
  | p0 :: _ =>
    st.cargoes ++
      [⟨(create_package st.buffer tb none).1, st.box_id, mime, p0.dts, p0.pts⟩]

/-- The whole segmentation loop on the stream of dts-carrying packets:
fold `segStep` over the packets, then flush the remaining buffer. -/
def segRun (tb D T : ℚ) (mime : String) (ps : List Packet) : List Cargo :=
  segFlush tb mime (ps.foldl (segStep tb D T mime) initState)

/-- The `if packet.dts is None: continue` filter of the demux loop: keep
only packets with a present decode timestamp. -/
def filterTimed : List RawPacket → List Packet
  | [] => []
  | r :: rest =>
    match r.dts with
    | none => filterTimed rest
    | some d => ⟨d, r.pts, r.payload⟩ :: filterTimed rest

/-- `out_fmt = CONFIG.CODEC_MAP.get(codec, "matroska"); mime = f"audio/{out_fmt}"`. -/
def mimeFor (codec : String) : String :=
  "audio/" ++ ((CODEC_MAP.lookup codec).getD "matroska")

/-- The cargo-producing behaviour of `run_packager_thread` on a source whose
demuxed packet sequence is `input`. -/
def run_packager (tb D T : ℚ) (codec : String) (input : List RawPacket) : List Cargo :=
  segRun tb D T (mimeFor codec) (filterTimed input)

/-- The cargoes enqueued after processing a packet prefix, with no final
flush: the state of the conveyor belt at an abort point inside the loop. -/
def emitted (tb D T : ℚ) (mime : String) (ps : List Packet) : List Cargo :=
  (ps.foldl (segStep tb D T mime) initState).cargoes

/-- The full sequence of items the packager thread puts on the conveyor belt
during one run.  `failAfter = none` is normal source exhaustion (all cargoes,
then the final flush); `failAfter = some k` is an exception raised after `k`
timed packets were consumed (`k = 0`: the source fails on open before any
packet is read).  In every case the `finally:` block enqueues the single
end-of-stream sentinel `None` last. -/
def packager_trace (tb D T : ℚ) (codec : String) (input : List RawPacket)
    (failAfter : Option Nat) : List (Option Cargo) :=
  match failAfter with
  | none => (run_packager tb D T codec input).map some ++ [none]
  | some k =>
    (emitted tb D T (mimeFor codec) ((filterTimed input).take k)).map some ++ [none]

/-- The outcome of one `session.post` in `ship_cargo`: either a response with
a status code, a JSON body (an association list; `body.get` is lookup) and a
diagnostic text body, or an exception raised by the transport. -/
inductive UploadOutcome where
  | response (status : Nat) (json : List (String × String)) (text : String)
  | exc (msg : String)
deriving DecidableEq, Repr

/-- The destination URL and headers built by `ship_cargo` (lines 186-191). -/
structure RequestShape where
  url : String
  authorization : String
  contentType : String
deriving DecidableEq, Repr

/-- `if provider == "assemblyai": ... else: ...` request shaping of
`ship_cargo`: every provider value other than exactly `"assemblyai"` takes
the `else` (deepgram) branch. -/
def buildRequest (provider api_key : String) (cargo : Cargo) : RequestShape :=
  if provider = "assemblyai" then
    ⟨"https://api.assemblyai.com/v2/upload", api_key, "application/octet-stream"⟩
  else
    ⟨"https://manage.deepgram.com/storage/assets", "Token " ++ api_key, cargo.mime_type⟩

/-- One per-chunk result dict appended to `results`. -/
inductive ShipResult where
  | success (chunk_index : Nat) (reference : Option String)
  | failed (chunk_index : Nat) (error : String)
  | err (chunk_index : Nat) (error : String)
deriving DecidableEq, Repr

/-- Python's `a or b` on optional strings: `None` and the empty string are
falsy, so `body.get("asset_id") or body.get("asset")` falls through on both. -/
def pyOr (a b : Option String) : Option String :=
  match a with
  | none => b
  | some s => if s = "" then b else some s

/-- `ship_cargo`: on `resp.status < 400` record a success result with the
provider-specific reference field; on a non-success status record a failed
result carrying the response text; on an exception record an error result
carrying its description.  The second component counts the
`cargo.buffer.close()` calls executed (a single `finally:` close on every
path). -/
def ship_cargo (provider api_key : String) (cargo : Cargo) (outcome : UploadOutcome) :
    ShipResult × Nat :=
  match outcome with
  | .response status json text =>
    if status < 400 then
      (.success cargo.index
        (if provider = "assemblyai" then json.lookup "upload_url"
         else pyOr (json.lookup "asset_id") (json.lookup "asset")), 1)
    else
      (.failed cargo.index text, 1)
  | .exc msg => (.err cargo.index msg, 1)

/-- The consumption loop of `run_shipper`: dequeue until the sentinel `None`,
spawning one `ship_cargo` task per cargo; `env n` is the upload outcome of
the `n`-th spawned task.  All tasks are awaited, so the result list holds one
entry per cargo dequeued before the sentinel. -/
def run_shipper (provider api_key : String) (env : Nat → UploadOutcome) :
    List (Option Cargo) → Nat → List ShipResult
  | [], _ => []
  | none :: _, _ => []
  | some c :: rest, n =>
    (ship_cargo provider api_key c (env n)).1 :: run_shipper provider api_key env rest (n + 1)

/-- The response of the `POST /` handler. -/
structure RunOutput where
  success : Bool
  assets : List ShipResult
deriving Repr

/-- `process_video`: run packager and shipper and return
`{"success": True, ..., "assets": upload_results}`.  The packager thread
catches its own exceptions (`except Exception as e: print(...)`), so the
handler returns `success := true` on every path. -/
def process_video (tb D T : ℚ) (codec : String) (input : List RawPacket)
    (failAfter : Option Nat) (provider api_key : String)
    (env : Nat → UploadOutcome) : RunOutput :=
  ⟨true, run_shipper provider api_key env (packager_trace tb D T codec input failAfter) 0⟩

/-- Undo the per-chunk rebase: add the chunk's first-packet `dts`/`pts` back
onto every packet of the sealed content. -/
def unrebase (c : Cargo) : List Packet :=
  c.content.map (fun p => ⟨p.dts + c.baseDts, p.pts + c.basePts, p.payload⟩)

/-- Concatenate the un-rebased contents of a cargo sequence in order. -/
def concatContent : List Cargo → List Packet
  | [] => []
  | c :: cs => unrebase c ++ concatContent cs

/-- View a timed packet as a raw source packet again. -/
def toRaw (p : Packet) : RawPacket := ⟨some p.dts, p.pts, p.payload⟩

/-! ### Basic lemmas about the mux loop of `create_package` -/

lemma muxLoop_fst (bD bP : Int) (tb : ℚ) (m : Option ℚ) (l : List Packet) :
    ∀ (i c : Nat),
      (muxLoop bD bP tb m l i c).1 =
        (l.takeWhile (includedB bD tb m)).map (rebasePacket bD bP) := by
  induction l with
  | nil => intro i c; rfl
  | cons pkt rest ih =>
    intro i c
    cases hI : includedB bD tb m pkt with
    | true => simp [muxLoop, hI, List.takeWhile_cons, ih]
    | false => simp [muxLoop, hI, List.takeWhile_cons]

lemma muxLoop_snd (bD bP : Int) (tb : ℚ) (m : Option ℚ) (xs : List Packet) :
    ∀ (x : Packet) (i c : Nat), includedB bD tb m x = true →
      (muxLoop bD bP tb m (x :: xs) i c).2 + 1 =
        i + ((x :: xs).takeWhile (includedB bD tb m)).length := by
  induction xs with
  | nil => intro x i c hx; simp [muxLoop, hx, List.takeWhile_cons]
  | cons y t ih =>
    intro x i c hx
    cases hy : includedB bD tb m y with
    | false => simp [muxLoop, hx, hy, List.takeWhile_cons]
    | true =>
      have h := ih y (i + 1) i hy
      simp only [muxLoop, hx, if_true, List.takeWhile_cons, hy] at h ⊢
      simp only [List.length_cons] at h ⊢
      omega

lemma drop_length_takeWhile {α : Type _} (p : α → Bool) (l : List α) :
    l.drop ((l.takeWhile p).length) = l.dropWhile p := by
  induction l with
  | nil => rfl
  | cons a t ih =>
    cases h : p a <;> simp [List.takeWhile_cons, List.dropWhile_cons, h, ih]

lemma includedB_self (tb D : ℚ) (hD : 0 < D) (p : Packet) :
    includedB p.dts tb (some D) p = true := by
  simp [includedB, ltMax, rel_time, hD]

lemma includedB_false_iff (bD : Int) (tb D : ℚ) (p : Packet) :
    includedB bD tb (some D) p = false ↔ D ≤ rel_time bD tb p := by
  simp [includedB, ltMax, not_lt]

lemma takeWhile_none (bD : Int) (tb : ℚ) (l : List Packet) :
    l.takeWhile (includedB bD tb none) = l := by
  induction l with
  | nil => rfl
  | cons a t ih => simp [List.takeWhile_cons, includedB, ltMax, ih]

lemma create_package_fst (tb D : ℚ) (p0 : Packet) (rest : List Packet) :
    (create_package (p0 :: rest) tb (some D)).1 =
      ((p0 :: rest).takeWhile (includedB p0.dts tb (some D))).map
        (rebasePacket p0.dts p0.pts) := by
  simpa [create_package] using muxLoop_fst p0.dts p0.pts tb (some D) (p0 :: rest) 0 0

lemma create_package_snd (tb D : ℚ) (hD : 0 < D) (p0 : Packet) (rest : List Packet) :
    (create_package (p0 :: rest) tb (some D)).2 + 1 =
      ((p0 :: rest).takeWhile (includedB p0.dts tb (some D))).length := by
  simpa [create_package] using
    muxLoop_snd p0.dts p0.pts tb (some D) rest p0 0 0 (includedB_self tb D hD p0)

lemma create_package_none_fst (tb : ℚ) (p0 : Packet) (rest : List Packet) :
    (create_package (p0 :: rest) tb none).1 =
      (p0 :: rest).map (rebasePacket p0.dts p0.pts) := by
  have h := muxLoop_fst p0.dts p0.pts tb none (p0 :: rest) 0 0
  rwa [takeWhile_none] at h

lemma unrebase_map (bD bP : Int) (l : List Packet) (idx : Nat) (mime : String) :
    unrebase ⟨l.map (rebasePacket bD bP), idx, mime, bD, bP⟩ = l := by
  simp only [unrebase, List.map_map]
  conv_rhs => rw [← List.map_id l]
  apply List.map_congr_left
  intro a _
  cases a
  simp [rebasePacket, Function.comp]

lemma concatContent_append (l₁ l₂ : List Cargo) :
    concatContent (l₁ ++ l₂) = concatContent l₁ ++ concatContent l₂ := by
  induction l₁ with
  | nil => rfl
  | cons c t ih => simp [concatContent, ih, List.append_assoc]

/-! ### The round-trip invariant of the segmentation loop -/

lemma roundtrip_step (tb D T : ℚ) (mime : String) (hD : 0 < D)
    (st : SegState) (p : Packet) :
    concatContent (segStep tb D T mime st p).cargoes ++ (segStep tb D T mime st p).buffer =
      concatContent st.cargoes ++ st.buffer ++ [p] := by
  unfold segStep
  split
  · obtain ⟨p0, rest, hb⟩ :=
      List.exists_cons_of_ne_nil (l := st.buffer ++ [p]) (by simp)
    rw [hb, concatContent_append]
    simp only [concatContent, List.append_nil, List.headI]
    rw [create_package_fst, unrebase_map, create_package_snd tb D hD,
      drop_length_takeWhile, List.append_assoc, List.takeWhile_append_dropWhile,
      ← hb, List.append_assoc]
  · simp [List.append_assoc]

lemma roundtrip_fold (tb D T : ℚ) (mime : String) (hD : 0 < D) :
    ∀ (ps : List Packet) (st : SegState),
      concatContent ((ps.foldl (segStep tb D T mime) st)).cargoes ++
          (ps.foldl (segStep tb D T mime) st).buffer =
        concatContent st.cargoes ++ st.buffer ++ ps := by
  intro ps
  induction ps with
  | nil => intro st; simp
  | cons p ps ih =>
    intro st
    simp only [List.foldl_cons]
    rw [ih (segStep tb D T mime st p), roundtrip_step tb D T mime hD st p]
    simp [List.append_assoc]

lemma flush_content (tb : ℚ) (mime : String) (st : SegState) :
    concatContent (segFlush tb mime st) = concatContent st.cargoes ++ st.buffer := by
  cases hb : st.buffer with
  | nil => simp [segFlush, hb]
  | cons p0 rest =>
    simp only [segFlush, hb, concatContent_append, concatContent, List.append_nil]
    rw [create_package_none_fst, unrebase_map]

lemma segRun_content (tb D T : ℚ) (mime : String) (hD : 0 < D) (ps : List Packet) :
    concatContent (segRun tb D T mime ps) = ps := by
  unfold segRun
  rw [flush_content]
  have h := roundtrip_fold tb D T mime hD ps initState
  simpa [initState, concatContent] using h

lemma filterTimed_toRaw (input : List RawPacket) (h : ∀ r ∈ input, r.dts.isSome) :
    (filterTimed input).map toRaw = input := by
  induction input with
  | nil => rfl
  | cons r rest ih =>
    obtain ⟨rd, rp, rl⟩ := r
    cases hd : rd with
    | none =>
      exact absurd (h ⟨rd, rp, rl⟩ (by simp)) (by simp [hd])
    | some d =>
      subst hd
      simp only [filterTimed, List.map_cons, toRaw]
      rw [ih (fun x hx => h x (by simp [hx]))]

/-- Claim C1: for every packet sequence in which all packets have a present
decode timestamp (and a positive chunk duration, as configured),
concatenating the packets of the produced Cargoes in sequence-index order
and undoing each chunk's timestamp rebase (adding back the chunk's
first-packet `dts`/`pts`) reproduces the original packet sequence exactly:
no packet duplicated, none dropped, order preserved across chunk
boundaries. -/
theorem cargo_roundtrip_exact (tb D T : ℚ) (codec : String) (input : List RawPacket)
    (hD : 0 < D) (hts : ∀ r ∈ input, r.dts.isSome) :
    (concatContent (run_packager tb D T codec input)).map toRaw = input := by
  unfold run_packager
  rw [segRun_content tb D T (mimeFor codec) hD]
  exact filterTimed_toRaw input hts

/-- Witness for C1 at a concrete four-packet stream. -/
theorem cargo_roundtrip_exact_witness :
    (0 < (1 : ℚ)) ∧
    (∀ r ∈ [(⟨some 0, 0, 0⟩ : RawPacket), ⟨some 2, 2, 1⟩, ⟨some 4, 4, 2⟩, ⟨some 6, 6, 3⟩],
        r.dts.isSome) ∧
    (concatContent (run_packager 1 3 1 "opus"
        [⟨some 0, 0, 0⟩, ⟨some 2, 2, 1⟩, ⟨some 4, 4, 2⟩, ⟨some 6, 6, 3⟩])).map toRaw =
      [⟨some 0, 0, 0⟩, ⟨some 2, 2, 1⟩, ⟨some 4, 4, 2⟩, ⟨some 6, 6, 3⟩] :=
  ⟨by norm_num, by decide,
    cargo_roundtrip_exact 1 3 1 "opus"
      [⟨some 0, 0, 0⟩, ⟨some 2, 2, 1⟩, ⟨some 4, 4, 2⟩, ⟨some 6, 6, 3⟩]
      (by norm_num) (by decide)⟩

/-! ### The seal/cut step (claim C2) -/

/-- Claim C2: whenever the accumulated duration
`(packet.dts - buffer[0].dts) * time_base` reaches `D + T`, the segmenter
seals exactly the longest prefix of the buffer whose packets have a dts
offset from the first packet strictly below `D` (rebased), records the index
of the last included packet as the cut point (`cutoff + 1` equals the sealed
prefix length), and the new buffer is exactly the suffix strictly after the
cut point, so that no buffered packet is discarded. -/
theorem seal_at_threshold (tb D T : ℚ) (mime : String) (st : SegState) (p : Packet)
    (hD : 0 < D)
    (hcut : ((p.dts - (st.buffer ++ [p]).headI.dts : Int) : ℚ) * tb ≥ D + T) :
    (segStep tb D T mime st p).cargoes =
      st.cargoes ++
        [⟨((st.buffer ++ [p]).takeWhile
              (includedB (st.buffer ++ [p]).headI.dts tb (some D))).map
            (rebasePacket (st.buffer ++ [p]).headI.dts (st.buffer ++ [p]).headI.pts),
          st.box_id, mime, (st.buffer ++ [p]).headI.dts, (st.buffer ++ [p]).headI.pts⟩] ∧
    (create_package (st.buffer ++ [p]) tb (some D)).2 + 1 =
      ((st.buffer ++ [p]).takeWhile
        (includedB (st.buffer ++ [p]).headI.dts tb (some D))).length ∧
    (segStep tb D T mime st p).buffer =
      (st.buffer ++ [p]).drop ((create_package (st.buffer ++ [p]) tb (some D)).2 + 1) ∧
    (st.buffer ++ [p]).takeWhile (includedB (st.buffer ++ [p]).headI.dts tb (some D)) ++
        (segStep tb D T mime st p).buffer =
      st.buffer ++ [p] := by
  obtain ⟨p0, rest, hb⟩ :=
    List.exists_cons_of_ne_nil (l := st.buffer ++ [p]) (by simp)
  rw [segStep, if_pos hcut, hb]
  simp only [List.headI]
  refine ⟨?_, ?_, ?_, ?_⟩
  · rw [create_package_fst]
  · exact create_package_snd tb D hD p0 rest
  · trivial
  · rw [create_package_snd tb D hD, drop_length_takeWhile,
      List.takeWhile_append_dropWhile]

/-- Buffer state used by the C2 witness. -/
def exSt : SegState := ⟨[⟨0, 0, 0⟩], 0, []⟩

/-- Packet used by the C2 witness. -/
def exP : Packet := ⟨2, 2, 1⟩

/-- Witness for C2: a two-packet buffer state past the threshold. -/
theorem seal_at_threshold_witness :
    (0 < (1 : ℚ)) ∧
    ((exP.dts - (exSt.buffer ++ [exP]).headI.dts : Int) : ℚ) * 1 ≥ 1 + 0 ∧
    ((segStep 1 1 0 "m" exSt exP).cargoes =
      exSt.cargoes ++
        [⟨((exSt.buffer ++ [exP]).takeWhile
              (includedB (exSt.buffer ++ [exP]).headI.dts 1 (some 1))).map
            (rebasePacket (exSt.buffer ++ [exP]).headI.dts (exSt.buffer ++ [exP]).headI.pts),
          exSt.box_id, "m", (exSt.buffer ++ [exP]).headI.dts,
          (exSt.buffer ++ [exP]).headI.pts⟩] ∧
    (create_package (exSt.buffer ++ [exP]) 1 (some 1)).2 + 1 =
      ((exSt.buffer ++ [exP]).takeWhile
        (includedB (exSt.buffer ++ [exP]).headI.dts 1 (some 1))).length ∧
    (segStep 1 1 0 "m" exSt exP).buffer =
      (exSt.buffer ++ [exP]).drop ((create_package (exSt.buffer ++ [exP]) 1 (some 1)).2 + 1) ∧
    (exSt.buffer ++ [exP]).takeWhile (includedB (exSt.buffer ++ [exP]).headI.dts 1 (some 1)) ++
        (segStep 1 1 0 "m" exSt exP).buffer =
      exSt.buffer ++ [exP]) :=
  ⟨by norm_num, by with_unfolding_all decide,
    seal_at_threshold 1 1 0 "m" exSt exP (by norm_num) (by with_unfolding_all decide)⟩

/-! ### Sequence indices (claim C6) -/

lemma fold_indices (tb D T : ℚ) (mime : String) :
    ∀ (ps : List Packet) (st : SegState),
      st.cargoes.map Cargo.index = List.range st.box_id →
      ((ps.foldl (segStep tb D T mime) st)).cargoes.map Cargo.index =
        List.range ((ps.foldl (segStep tb D T mime) st)).box_id := by
  intro ps
  induction ps with
  | nil => intro st h; exact h
  | cons p ps ih =>
    intro st h
    simp only [List.foldl_cons]
    apply ih
    unfold segStep
    split
    · simp [h, List.range_succ]
    · exact h

lemma segRun_indices (tb D T : ℚ) (mime : String) (ps : List Packet) :
    (segRun tb D T mime ps).map Cargo.index =
      List.range (segRun tb D T mime ps).length := by
  have h := fold_indices tb D T mime ps initState (by simp [initState])
  have hlen : (ps.foldl (segStep tb D T mime) initState).cargoes.length =
      (ps.foldl (segStep tb D T mime) initState).box_id := by
    have h2 := congrArg List.length h
    simpa using h2
  unfold segRun
  cases hb : (ps.foldl (segStep tb D T mime) initState).buffer with
  | nil =>
    simp only [segFlush, hb]
    rw [hlen]
    exact h
  | cons p0 rest =>
    simp only [segFlush, hb, List.map_append, List.length_append, h, hlen]
    simp [List.range_succ]

lemma filterTimed_none (input : List RawPacket) (h : ∀ r ∈ input, r.dts = none) :
    filterTimed input = [] := by
  induction input with
  | nil => rfl
  | cons r rest ih =>
    have hr := h r (by simp)
    simp [filterTimed, hr, ih (fun x hx => h x (by simp [hx]))]

/-- Claim C6: the sequence indices carried by the produced Cargoes form the
contiguous range `0..N-1` in emission order (no gaps, no repeats), and a
source yielding zero packets with timestamps produces zero Cargoes. -/
theorem cargo_indices_contiguous (tb D T : ℚ) (codec : String)
    (input : List RawPacket) :
    (run_packager tb D T codec input).map Cargo.index =
      List.range (run_packager tb D T codec input).length ∧
    ((∀ r ∈ input, r.dts = none) → run_packager tb D T codec input = []) := by
  refine ⟨segRun_indices tb D T (mimeFor codec) (filterTimed input), ?_⟩
  intro h
  unfold run_packager
  rw [filterTimed_none input h]
  rfl

/-- Witness for C6: a source whose single packet lacks a dts. -/
theorem cargo_indices_contiguous_witness :
    ((run_packager 1 1800 600 "aac" [⟨none, 5, 0⟩]).map Cargo.index =
      List.range (run_packager 1 1800 600 "aac" [⟨none, 5, 0⟩]).length) ∧
    run_packager 1 1800 600 "aac" [⟨none, 5, 0⟩] = [] :=
  ⟨(cargo_indices_contiguous 1 1800 600 "aac" [⟨none, 5, 0⟩]).1,
   (cargo_indices_contiguous 1 1800 600 "aac" [⟨none, 5, 0⟩]).2 (by decide)⟩

/-! ### The end-of-stream sentinel (claim C4) -/

lemma trace_shape (l : List Cargo) :
    ((l.map some ++ [none]).countP Option.isNone = 1) ∧
    (l.map some ++ [none] : List (Option Cargo)).getLast? = some none := by
  constructor
  · induction l with
    | nil => simp
    | cons c t ih => simpa [List.countP_cons] using ih
  · exact List.getLast?_concat _

/-- Claim C4: on every run — normal exhaustion, or an exception after any
number of packets including an exception on open before any packet is read —
exactly one end-of-stream sentinel (`None`) is enqueued on the conveyor
belt, and it is the last item enqueued, after every Cargo. -/
theorem sentinel_exactly_once (tb D T : ℚ) (codec : String)
    (input : List RawPacket) (failAfter : Option Nat) :
    ((packager_trace tb D T codec input failAfter).countP Option.isNone = 1) ∧
    (packager_trace tb D T codec input failAfter).getLast? = some none := by
  cases failAfter with
  | none => simpa only [packager_trace] using trace_shape _
  | some k => simpa only [packager_trace] using trace_shape _

/-! ### Shipper claims (C7, C8, C10) -/

/-- Cargo used by shipper witnesses. -/
def wCargo : Cargo := ⟨[], 2, "audio/webm", 0, 0⟩

/-- Claim C7: for every dequeued Cargo and every upload outcome — success,
non-success HTTP status, or a transport-level exception — the chunk's byte
container is released (`cargo.buffer.close()` in the `finally:` block)
exactly once. -/
theorem buffer_closed_once (provider api_key : String) (cargo : Cargo)
    (outcome : UploadOutcome) :
    (ship_cargo provider api_key cargo outcome).2 = 1 := by
  cases outcome with
  | response status json text =>
    by_cases h : status < 400 <;> simp [ship_cargo, h]
  | exc msg => rfl

/-- Claim C8: a non-success status (≥ 400) records a failure Result carrying
the response body text; a transport-level exception records an error Result
carrying the exception's description; and every Cargo dequeued before the
sentinel yields exactly one Result, regardless of the outcomes, so no
outcome aborts sibling uploads. -/
theorem per_chunk_failure_results (provider api_key : String) (cargo : Cargo) :
    (∀ (status : Nat) (json : List (String × String)) (text : String),
        400 ≤ status →
        (ship_cargo provider api_key cargo (.response status json text)).1 =
          .failed cargo.index text) ∧
    (∀ msg : String,
        (ship_cargo provider api_key cargo (.exc msg)).1 = .err cargo.index msg) ∧
    (∀ (cs : List Cargo) (env : Nat → UploadOutcome) (n : Nat),
        (run_shipper provider api_key env (cs.map some ++ [none]) n).length =
          cs.length) := by
  refine ⟨?_, ?_, ?_⟩
  · intro status json text h
    have hn : ¬ status < 400 := by omega
    simp [ship_cargo, hn]
  · intro msg; rfl
  · intro cs
    induction cs with
    | nil => intro env n; rfl
    | cons c t ih => intro env n; simp [run_shipper, ih]

/-- Witness for C8: an HTTP 500 response, a transport exception, and a
one-cargo queue. -/
theorem per_chunk_failure_results_witness :
    ((ship_cargo "assemblyai" "k" wCargo (.response 500 [] "boom")).1 =
      .failed wCargo.index "boom") ∧
    ((ship_cargo "assemblyai" "k" wCargo (.exc "down")).1 =
      .err wCargo.index "down") ∧
    (run_shipper "assemblyai" "k" (fun _ => .exc "down")
        ([wCargo].map some ++ [none]) 0).length = 1 :=
  ⟨(per_chunk_failure_results "assemblyai" "k" wCargo).1 500 [] "boom" (by decide),
   (per_chunk_failure_results "assemblyai" "k" wCargo).2.1 "down",
   (per_chunk_failure_results "assemblyai" "k" wCargo).2.2 [wCargo]
     (fun _ => .exc "down") 0⟩

/-- Claim C10: every provider string other than exactly `"assemblyai"` —
including unrecognized or misspelled values — gets the deepgram request
shape (deepgram URL, `Token <key>` authorization, the chunk's own MIME type
as Content-Type); no provider value is rejected. -/
theorem unknown_provider_uses_deepgram (provider api_key : String) (cargo : Cargo)
    (h : provider ≠ "assemblyai") :
    buildRequest provider api_key cargo =
      ⟨"https://manage.deepgram.com/storage/assets", "Token " ++ api_key,
        cargo.mime_type⟩ := by
  simp [buildRequest, h]

/-- Witness for C10: a misspelled provider string. -/
theorem unknown_provider_uses_deepgram_witness :
    buildRequest "deepgran" "k" wCargo =
      ⟨"https://manage.deepgram.com/storage/assets", "Token " ++ "k",
        wCargo.mime_type⟩ :=
  unknown_provider_uses_deepgram "deepgran" "k" wCargo (by decide)

/-! ### The orchestrator's success flag (claim C5)

Claim C5 asserts that pipeline-fatal failures make the run output report
overall failure (`success = false`).  The code does not do this:
`run_packager_thread` catches every exception and only prints it, and
`process_video` returns `{"success": True, ...}` unconditionally. -/

/-- Counterexample to claim C5: a run whose source fails on open before any
packet is read (`failAfter = some 0`, a pipeline-fatal failure) still
reports `success = true`, not `false`. -/
theorem success_flag_cex :
    ¬ (process_video 1 1800 600 "opus" [] (some 0) "assemblyai" "k"
        (fun _ => .exc "network down")).success = false := by
  decide

/-- Amended C5: pipeline-fatal failures are swallowed inside the packager
thread (logged only); the run output reports `success = true` on every path
— fatal or not — while still returning the Results collected from the
cargoes enqueued before the failure. -/
theorem success_flag_always_true (tb D T : ℚ) (codec : String)
    (input : List RawPacket) (failAfter : Option Nat) (provider api_key : String)
    (env : Nat → UploadOutcome) :
    (process_video tb D T codec input failAfter provider api_key env).success = true ∧
    (process_video tb D T codec input failAfter provider api_key env).assets =
      run_shipper provider api_key env
        (packager_trace tb D T codec input failAfter) 0 :=
  ⟨rfl, rfl⟩

/-! ### The 5000-second scenario (claim C9)

The spec's scenario claims 2 Cargoes for a uniformly spaced 5000-second
stream with `D = 1800`, `T = 600`.  Tracing the code: the cut fires whenever
the buffered span reaches `D + T = 2400`, which happens at offset 2400
(sealing `[0, 1800)`) and again at offset 4200 from the new base 1800
(sealing `[1800, 3600)`), leaving `[3600, 5000)` for the final flush — three
Cargoes, not two. -/

/-- A uniformly spaced stream of total duration 5000 seconds: 25 packets of
200 seconds each at time base 1, covering `[0, 5000)`. -/
def stream5000 : List Packet :=
  (List.range 25).map (fun k => ⟨(200 * k : Nat), (200 * k : Nat), k⟩)

set_option maxRecDepth 8000 in
/-- Counterexample to claim C9: the scenario produces three Cargoes, not
exactly two. -/
theorem scenario_5000s_cex :
    ¬ (segRun 1 CHUNK_DURATION BUFFER_TAIL "audio/webm" stream5000).length = 2 := by
  with_unfolding_all decide

set_option maxRecDepth 8000 in
/-- Amended C9: the 5000-second uniformly spaced scenario with `D = 1800`,
`T = 600` produces exactly three Cargoes with sequence indices 0, 1, 2,
spanning `[0, 1800)`, `[1800, 3600)` and `[3600, 5000)` of the source
timeline (rebase bases 0, 1800, 3600; 9, 9 and 7 packets of 200 s each). -/
theorem scenario_5000s_amended :
    (segRun 1 CHUNK_DURATION BUFFER_TAIL "audio/webm" stream5000).map Cargo.index =
      [0, 1, 2] ∧
    (segRun 1 CHUNK_DURATION BUFFER_TAIL "audio/webm" stream5000).map Cargo.baseDts =
      [0, 1800, 3600] ∧
    (segRun 1 CHUNK_DURATION BUFFER_TAIL "audio/webm" stream5000).map
        (fun c => c.content.length) = [9, 9, 7] := by
  with_unfolding_all decide

/-! ### Chunk spans (claim C3)

A non-final chunk covers the source timeline from its own rebase base to the
next chunk's base.  The next chunk's base is the first buffered packet at or
past offset `D`, so the covered span is at least `D`; and since that packet's
predecessor lies strictly below `D`, the span exceeds `D` by less than one
inter-packet gap (one packet's duration, for a gap-bounded stream). -/

/-- Adjacent packets are at most `g` seconds apart (`g` bounds one packet's
duration in a uniformly spaced stream). -/
def gapLE (tb g : ℚ) (a b : Packet) : Prop :=
  ((b.dts - a.dts : Int) : ℚ) * tb ≤ g

/-- Consecutive chunks start at least `D` and less than `D + g` seconds
apart on the source timeline. -/
def spanOK (tb D g : ℚ) (c c2 : Cargo) : Prop :=
  D ≤ ((c2.baseDts - c.baseDts : Int) : ℚ) * tb ∧
  ((c2.baseDts - c.baseDts : Int) : ℚ) * tb < D + g

instance (tb g : ℚ) : DecidableRel (gapLE tb g) := fun a b =>
  inferInstanceAs (Decidable (((b.dts - a.dts : Int) : ℚ) * tb ≤ g))

/-- Invariant of the segmentation loop: the emitted cargo bases are span-
correct, and when cargoes exist the buffer is nonempty and its head (the
base of the next chunk to be emitted) is span-correct relative to the last
emitted cargo. -/
def SpanInv (tb D g : ℚ) (st : SegState) : Prop :=
  List.Chain' (spanOK tb D g) st.cargoes ∧
  ∀ c ∈ st.cargoes.getLast?, st.buffer ≠ [] ∧
    D ≤ ((st.buffer.headI.dts - c.baseDts : Int) : ℚ) * tb ∧
    ((st.buffer.headI.dts - c.baseDts : Int) : ℚ) * tb < D + g

lemma headI_append_left {α : Type _} [Inhabited α] (l l' : List α) (h : l ≠ []) :
    (l ++ l').headI = l.headI := by
  cases l with
  | nil => exact absurd rfl h
  | cons a t => rfl

lemma dropWhile_headI_false {α : Type _} [Inhabited α] (p : α → Bool) (l : List α)
    (h : l.dropWhile p ≠ []) : p ((l.dropWhile p).headI) = false := by
  induction l with
  | nil => exact absurd rfl h
  | cons a t ih =>
    cases ha : p a with
    | false => simp [List.dropWhile_cons, ha]
    | true =>
      simp only [List.dropWhile_cons, ha, if_true] at h ⊢
      exact ih h

lemma includedB_true_iff (bD : Int) (tb D : ℚ) (p : Packet) :
    includedB bD tb (some D) p = true ↔ rel_time bD tb p < D := by
  simp [includedB, ltMax]

lemma rel_time_trans (base : Int) (tb : ℚ) (a b : Packet) :
    rel_time base tb b = rel_time base tb a + ((b.dts - a.dts : Int) : ℚ) * tb := by
  unfold rel_time
  push_cast
  ring

lemma chain'_drop_append {α : Type _} (R : α → α → Prop) :
    ∀ (l₁ l₂ : List α) (n : Nat),
      List.Chain' R (l₁ ++ l₂) → List.Chain' R (l₁.drop n ++ l₂) := by
  intro l₁
  induction l₁ with
  | nil => intro l₂ n h; simpa using h
  | cons a t ih =>
    intro l₂ n h
    cases n with
    | zero => exact h
    | succ m => exact ih l₂ m (List.Chain'.tail h)

lemma span_step (tb D T g : ℚ) (mime : String) (hD : 0 < D) (hT : 0 ≤ T)
    (st : SegState) (p : Packet)
    (hchain : List.Chain' (gapLE tb g) (st.buffer ++ [p]))
    (hinv : SpanInv tb D g st) :
    SpanInv tb D g (segStep tb D T mime st p) := by
  by_cases hcut : ((p.dts - (st.buffer ++ [p]).headI.dts : Int) : ℚ) * tb ≥ D + T
  · rw [segStep, if_pos hcut]
    obtain ⟨p0, rest, hb⟩ :=
      List.exists_cons_of_ne_nil (l := st.buffer ++ [p]) (by simp)
    rw [hb] at hchain hcut ⊢
    simp only [List.headI] at hcut ⊢
    -- the sealed prefix and the carried-over suffix
    have hsnd := create_package_snd tb D hD p0 rest
    have hdropeq : (p0 :: rest).drop ((create_package (p0 :: rest) tb (some D)).2 + 1) =
        (p0 :: rest).dropWhile (includedB p0.dts tb (some D)) := by
      rw [hsnd, drop_length_takeWhile]
    -- the cut-triggering packet fails the predicate
    have hpmem : p ∈ p0 :: rest := by
      rw [← hb]; simp
    have hpfail : includedB p0.dts tb (some D) p = false := by
      rw [includedB_false_iff]
      unfold rel_time
      have hTD : D ≤ D + T := by linarith
      exact le_trans hTD hcut
    have hDWne : (p0 :: rest).dropWhile (includedB p0.dts tb (some D)) ≠ [] := by
      intro hnil
      rw [List.dropWhile_eq_nil_iff] at hnil
      have h1 := hnil p hpmem
      rw [hpfail] at h1
      exact Bool.false_ne_true h1
    obtain ⟨q0, dw, hdw⟩ := List.exists_cons_of_ne_nil hDWne
    have hq0fail : includedB p0.dts tb (some D) q0 = false := by
      have h1 := dropWhile_headI_false (includedB p0.dts tb (some D)) (p0 :: rest) hDWne
      rw [hdw] at h1
      simpa using h1
    have hqlow : D ≤ rel_time p0.dts tb q0 := (includedB_false_iff _ _ _ _).mp hq0fail
    -- the sealed prefix is nonempty and its last packet lies below D
    have hTWne : (p0 :: rest).takeWhile (includedB p0.dts tb (some D)) ≠ [] := by
      simp [List.takeWhile_cons, includedB_self tb D hD p0]
    have hrpred : includedB p0.dts tb (some D)
        (((p0 :: rest).takeWhile (includedB p0.dts tb (some D))).getLast hTWne) = true :=
      List.mem_takeWhile_imp (List.getLast_mem hTWne)
    have hrlt := (includedB_true_iff _ _ _ _).mp hrpred
    -- the chain connects the sealed prefix's last packet to the new base
    have hchain2 : List.Chain' (gapLE tb g)
        ((p0 :: rest).takeWhile (includedB p0.dts tb (some D)) ++
          (p0 :: rest).dropWhile (includedB p0.dts tb (some D))) := by
      rw [List.takeWhile_append_dropWhile]
      exact hchain
    obtain ⟨-, -, hconn⟩ := List.chain'_append.mp hchain2
    have hgap : gapLE tb g
        (((p0 :: rest).takeWhile (includedB p0.dts tb (some D))).getLast hTWne) q0 := by
      apply hconn
      · exact List.getLast_mem_getLast? hTWne
      · rw [hdw]; simp
    have hqup : rel_time p0.dts tb q0 < D + g := by
      have h1 := rel_time_trans p0.dts tb
        (((p0 :: rest).takeWhile (includedB p0.dts tb (some D))).getLast hTWne) q0
      have h2 : ((q0.dts -
          (((p0 :: rest).takeWhile (includedB p0.dts tb (some D))).getLast hTWne).dts :
            Int) : ℚ) * tb ≤ g := hgap
      rw [h1]
      linarith
    constructor
    · -- chain on the extended cargo list
      apply List.Chain'.append hinv.1 (List.chain'_singleton _)
      intro x hx y hy
      simp only [List.head?, Option.mem_def, Option.some.injEq] at hy
      subst hy
      obtain ⟨hbne, hlow, hup⟩ := hinv.2 x hx
      have hsbh : st.buffer.headI = p0 := by
        have h0 := headI_append_left st.buffer [p] hbne
        rw [hb] at h0
        simpa using h0.symm
      rw [hsbh] at hlow hup
      exact ⟨hlow, hup⟩
    · -- clause for the new buffer versus the new cargo
      intro c hc
      rw [List.getLast?_concat] at hc
      simp only [Option.mem_def, Option.some.injEq] at hc
      subst hc
      rw [hdropeq, hdw]
      refine ⟨by simp, ?_, ?_⟩
      · simpa [List.headI, rel_time] using hqlow
      · simpa [List.headI, rel_time] using hqup
  · rw [segStep, if_neg hcut]
    obtain ⟨hchainC, hlast⟩ := hinv
    constructor
    · exact hchainC
    · intro c hc
      obtain ⟨hbne, hlow, hup⟩ := hlast c hc
      refine ⟨by simp, ?_, ?_⟩
      · rw [headI_append_left st.buffer [p] hbne]; exact hlow
      · rw [headI_append_left st.buffer [p] hbne]; exact hup

lemma span_fold (tb D T g : ℚ) (mime : String) (hD : 0 < D) (hT : 0 ≤ T) :
    ∀ (rest : List Packet) (st : SegState),
      List.Chain' (gapLE tb g) (st.buffer ++ rest) →
      SpanInv tb D g st →
      SpanInv tb D g (rest.foldl (segStep tb D T mime) st) := by
  intro rest
  induction rest with
  | nil => intro st _ hinv; exact hinv
  | cons p ps ih =>
    intro st hchain hinv
    simp only [List.foldl_cons]
    have hchain1 : List.Chain' (gapLE tb g) ((st.buffer ++ [p]) ++ ps) := by
      simpa [List.append_assoc] using hchain
    apply ih
    · rw [segStep]
      split
      · exact chain'_drop_append _ (st.buffer ++ [p]) ps _ hchain1
      · exact hchain1
    · exact span_step tb D T g mime hD hT st p hchain1.left_of_append hinv

lemma span_flush (tb D g : ℚ) (mime : String) (st : SegState)
    (hinv : SpanInv tb D g st) :
    List.Chain' (spanOK tb D g) (segFlush tb mime st) := by
  cases hb : st.buffer with
  | nil => simpa [segFlush, hb] using hinv.1
  | cons p0 rest =>
    simp only [segFlush, hb]
    apply List.Chain'.append hinv.1 (List.chain'_singleton _)
    intro x hx y hy
    simp only [List.head?, Option.mem_def, Option.some.injEq] at hy
    subst hy
    obtain ⟨hbne, hlow, hup⟩ := hinv.2 x hx
    rw [hb] at hlow hup
    simp only [List.headI] at hlow hup
    exact ⟨hlow, hup⟩

/-- Claim C3: for a stream whose adjacent packets are at most `g` seconds
apart (one packet's duration under uniform spacing), every produced chunk
except possibly the last spans at least `D` seconds of source timeline —
measured from the chunk's base to the next chunk's base — never less, and
exceeds `D` by less than `g`. -/
theorem chunk_spans_at_least_D (tb D T g : ℚ) (mime : String)
    (hD : 0 < D) (hT : 0 ≤ T) (ps : List Packet)
    (hgap : List.Chain' (gapLE tb g) ps) :
    List.Chain' (spanOK tb D g) (segRun tb D T mime ps) := by
  apply span_flush
  apply span_fold tb D T g mime hD hT ps initState
  · simpa [initState] using hgap
  · constructor
    · exact List.chain'_nil
    · intro c hc
      simp [initState] at hc

/-- Witness for C3: a three-packet uniformly spaced stream producing three
chunks whose consecutive bases are exactly `D` apart. -/
theorem chunk_spans_at_least_D_witness :
    (0 < (1 : ℚ)) ∧ (0 ≤ (0 : ℚ)) ∧
    List.Chain' (gapLE 1 1) [(⟨0, 0, 0⟩ : Packet), ⟨1, 1, 1⟩, ⟨2, 2, 2⟩] ∧
    List.Chain' (spanOK 1 1 1) (segRun 1 1 0 "m" [⟨0, 0, 0⟩, ⟨1, 1, 1⟩, ⟨2, 2, 2⟩]) :=
  ⟨by norm_num, by norm_num,
    by norm_num [List.chain'_cons, List.chain'_singleton, gapLE],
    chunk_spans_at_least_D 1 1 0 1 "m" (by norm_num) (by norm_num)
      [⟨0, 0, 0⟩, ⟨1, 1, 1⟩, ⟨2, 2, 2⟩]
      (by norm_num [List.chain'_cons, List.chain'_singleton, gapLE])⟩

end ApiIndex
